import Mathlib

/-!
Verification of the Ath scanning-and-retrieval engine.

The development shallowly embeds the core of the repository:
`ath/scanner.py` (AST-based project scanner), `ath/storage.py`
(SQLite-backed chunk store) and `ath/ai_chat.py` (lexical retriever).
Python strings are modelled by `String`, machine integers by `Nat`,
file texts by their character contents.  Case folding is modelled on
ASCII (Lean's `String.toLower`), matching the behaviour of Python's
`str.lower` on ASCII text.
-/

namespace Ath

/-! ## Python string primitives

The handful of `str` operations the code uses, implemented by
structural recursion over the character list of a `String` so that
every definition evaluates on concrete inputs. -/

/-- Split a character list at every character satisfying `p`, keeping
empty pieces (the behaviour of Python's `str.split(sep)`). -/
def splitByPred (p : Char → Bool) : List Char → List (List Char)
  | [] => [[]]
  | c :: cs =>
    if p c then [] :: splitByPred p cs
    else
      match splitByPred p cs with
      | [] => [[c]]
      | w :: ws => (c :: w) :: ws

/-- Python's `s.split(sep)` for a one-character separator: splits at
every occurrence, keeping empty pieces (`''.split('_') == ['']`). -/
def pySplitKeep (sep : Char) (s : String) : List String :=
  (splitByPred (fun c => c == sep) s.data).map String.mk

/-- Python's `s.split()` with no argument: split on whitespace runs,
dropping empty pieces. -/
def pySplitWS (s : String) : List String :=
  ((splitByPred Char.isWhitespace s.data).map String.mk).filter
    (fun w => w ≠ "")

/-- Python's `s.lower()` (ASCII case folding). -/
def pyLower (s : String) : String :=
  String.mk (s.data.map Char.toLower)

/-- Python's `s.replace(a, b)` for one-character `a` and `b`. -/
def pyReplaceChar (a b : Char) (s : String) : String :=
  String.mk (s.data.map (fun c => if c == a then b else c))

/-- Python's `s[:n]` character-prefix slice. -/
def pyTake (n : Nat) (s : String) : String :=
  String.mk (s.data.take n)

/-- Python's `s.endswith(pat)`. -/
def pyEndsWith (s pat : String) : Bool :=
  List.isPrefixOf pat.data.reverse s.data.reverse

/-- Realisation of a Python `set` of strings as the duplicate-free
list of first occurrences; only membership and intersection sizes are
ever used, so iteration order is irrelevant. -/
def dedupKeepFirst (seen : List String) : List String → List String
  | [] => []
  | a :: as =>
    if seen.contains a then dedupKeepFirst seen as
    else a :: dedupKeepFirst (a :: seen) as

/-- The `CodeChunk` dataclass of `ath/scanner.py`. -/
structure CodeChunk where
  file_path : String
  chunk_type : String
  name : String
  content : String
  line_start : Nat
  line_end : Nat
  docstring : String
deriving Repr, DecidableEq

/-! ## Python AST model (`ast` module as used by `ath/scanner.py`) -/

/-- Kinds of AST nodes the scanner distinguishes: `ast.FunctionDef`,
`ast.AsyncFunctionDef`, `ast.ClassDef`, and every other node kind. -/
inductive NodeKind where
  | functionDef
  | asyncFunctionDef
  | classDef
  | other
deriving Repr, DecidableEq

/-- A Python AST node: its kind, `name`, 1-based `lineno`, optional
`end_lineno`, its docstring (`ast.get_docstring`, `none` if absent) and
its child nodes.  For kinds without a name the `name` field is unused. -/
inductive Node where
  | node (kind : NodeKind) (name : String) (lineno : Nat)
      (endLineno : Option Nat) (doc : Option String)
      (children : List Node)

def Node.kind : Node → NodeKind
  | .node k _ _ _ _ _ => k

def Node.name : Node → String
  | .node _ n _ _ _ _ => n

def Node.lineno : Node → Nat
  | .node _ _ l _ _ _ => l

def Node.endLineno : Node → Option Nat
  | .node _ _ _ e _ _ => e

def Node.doc : Node → Option String
  | .node _ _ _ _ d _ => d

def Node.children : Node → List Node
  | .node _ _ _ _ _ cs => cs

/-- A parsed Python module (`ast.parse` result): the module docstring
(`ast.get_docstring(tree)`) and the module body's top-level nodes. -/
structure PyModule where
  docstring : Option String
  body : List Node

mutual

/-- `ast.walk` yields the node and all of its descendants (its
documentation leaves the order unspecified); embedded in depth-first
preorder, on which the properties below do not depend. -/
def walkNode : Node → List Node
  | .node k n l e d cs => .node k n l e d cs :: walkForest cs

/-- `ast.walk` over a list of sibling subtrees. -/
def walkForest : List Node → List Node
  | [] => []
  | c :: cs => walkNode c ++ walkForest cs

end

/-- Is the node an `ast.FunctionDef` or `ast.ClassDef`?  This is the
`isinstance(node, (ast.FunctionDef, ast.ClassDef))` test of
`ProjectScanner._parse_python_file`; note that `ast.AsyncFunctionDef`
is a distinct class and does not pass this test. -/
def isFCNode (n : Node) : Bool :=
  match n.kind with
  | .functionDef => true
  | .classDef => true
  | _ => false

mutual

/-- Number of `FunctionDef`/`ClassDef` nodes in a subtree (any depth). -/
def countFCNode : Node → Nat
  | .node k n l e d cs =>
    (if isFCNode (.node k n l e d cs) then 1 else 0) + countFCForest cs

/-- Number of `FunctionDef`/`ClassDef` nodes in a list of subtrees. -/
def countFCForest : List Node → Nat
  | [] => 0
  | c :: cs => countFCNode c + countFCForest cs

end

/-- Number of top-level `FunctionDef`/`ClassDef` declarations of a
module, written from the spec's words ("top-level function or class
declaration"); the code itself has no such notion. -/
def topLevelFCCount (m : PyModule) : Nat :=
  (m.body.filter isFCNode).length

/-- A Python source file as the scanner sees it: the path relative to
the project root (`file_path.relative_to(self.project_path)`), the
stem (`file_path.stem`), the file text, and the `ast.parse` result
(`none` when parsing raises a `SyntaxError`). -/
structure PyFile where
  relPath : String
  stem : String
  content : String
  tree : Option PyModule

/-- `ProjectScanner._extract_node_chunk`: build a `CodeChunk` from a
`FunctionDef`/`ClassDef` node.  Python's `lines[start_line:end_line]`
slice is `(lines.drop start_line).take (end_line - start_line)`. -/
def extract_node_chunk (node : Node) (file_content : String)
    (file_path : String) : CodeChunk :=
  let lines := pySplitKeep '\n' file_content
  let start_line := node.lineno - 1
  let end_line := node.endLineno.getD (start_line + 10)
  let code_content :=
    String.intercalate "\n" ((lines.drop start_line).take (end_line - start_line))
  let chunk_type := if node.kind = NodeKind.functionDef then "function" else "class"
  { file_path := file_path
    chunk_type := chunk_type
    name := node.name
    content := code_content
    line_start := node.lineno
    line_end := end_line
    docstring := node.doc.getD "" }

/-- The module-level chunk `_parse_python_file` builds for a parsed
file: name is the file stem, content the first 500 characters,
`line_start = 1`, `line_end = len(content.split('\n'))`, docstring
from `ast.get_docstring(tree)` (empty if none). -/
def moduleChunkOf (f : PyFile) (tree : PyModule) : CodeChunk :=
  { file_path := f.relPath
    chunk_type := "module"
    name := f.stem
    content := pyTake 500 f.content
    line_start := 1
    line_end := (pySplitKeep '\n' f.content).length
    docstring := tree.docstring.getD "" }

/-- `ProjectScanner._parse_python_file`.  On a parse failure the
`except` block swallows the exception and the accumulated (empty)
chunk list is returned.  On success the module chunk is appended
first, then one chunk for every `FunctionDef`/`ClassDef` node that
`ast.walk(tree)` yields — at every nesting depth.  (`ast.walk` also
yields the `Module` node itself, which the `isinstance` filter
discards, so walking the body forest is equivalent.)  The returned
chunk is always truthy, so the `if chunk:` guard always appends. -/
def parse_python_file (f : PyFile) : List CodeChunk :=
  match f.tree with
  | none => []
  | some tree =>
    moduleChunkOf f tree ::
      ((walkForest tree.body).filter isFCNode).map
        (fun n => extract_node_chunk n f.content f.relPath)

/-- `ProjectScanner.scan_project`: fold over the discovered files,
extending the chunk list with each file's chunks. -/
def scan_project (files : List PyFile) : List CodeChunk :=
  files.foldl (fun chunks f => chunks ++ parse_python_file f) []

/-! ## Directory traversal (`ProjectScanner._find_python_files`) -/

/-- A file-system tree: named files and named directories. -/
inductive FS where
  | file (name : String)
  | dir (name : String) (entries : List FS)

/-- `self.ignore_patterns` from `ProjectScanner.__init__`. -/
def ignore_patterns : List String :=
  [".git", "__pycache__", ".aibuddy", "node_modules", ".env"]

/-- The `.py` files directly inside a directory listing, as one-component
relative paths (the `for file in files: if file.endswith('.py')` loop). -/
def pyFilesOf : List FS → List (List String)
  | [] => []
  | .file n :: es =>
    (if pyEndsWith n ".py" then [[n]] else []) ++ pyFilesOf es
  | .dir _ _ :: es => pyFilesOf es

mutual

/-- `os.walk` from a directory whose entries are `es`, top-down: the
directory's own `.py` files first, then each kept subdirectory's
subtree in listing order.  `dirs[:] = [d for d in dirs if d not in
self.ignore_patterns]` prunes subdirectories by exact name equality
before descent. -/
def findPyDir (es : List FS) : List (List String) :=
  pyFilesOf es ++ findPySubdirs es

/-- The `.py` paths contributed by the non-pruned subdirectories. -/
def findPySubdirs : List FS → List (List String)
  | [] => []
  | .file _ :: es => findPySubdirs es
  | .dir n cs :: es =>
    (if n ∈ ignore_patterns then [] else (findPyDir cs).map (fun p => n :: p))
      ++ findPySubdirs es

end

/-- `ProjectScanner._find_python_files`, viewing the project root as the
list of its entries; paths are component lists relative to the root. -/
def find_python_files (root : List FS) : List (List String) :=
  findPyDir root

mutual

/-- All `.py` paths of a tree, with no directory pruning at all
(reference point for stating what pruning removes). -/
def allPyDir (es : List FS) : List (List String) :=
  pyFilesOf es ++ allPySubdirs es

/-- All `.py` paths contributed by subdirectories, with no pruning. -/
def allPySubdirs : List FS → List (List String)
  | [] => []
  | .file _ :: es => allPySubdirs es
  | .dir n cs :: es =>
    (allPyDir cs).map (fun p => n :: p) ++ allPySubdirs es

end

/-! ## Chunk store (`ath/storage.py`, class `LocalStorage`)

The SQLite database is modelled by the committed list of rows of the
`code_chunks` table (in insertion order, i.e. by ascending `rowid`)
together with the next value of the `AUTOINCREMENT` id sequence.  The
`created_at TIMESTAMP DEFAULT CURRENT_TIMESTAMP` column is wall-clock
data irrelevant to every property below and is omitted from the row
model.  A connection owns a durable (committed) state and an optional
open transaction: Python's `sqlite3` in its default isolation mode
implicitly issues `BEGIN` before the first data-modifying statement,
so `DELETE`/`INSERT` act on the transaction's pending state, which
becomes durable only at `commit()`; a connection abandoned without
commit is rolled back and other readers only ever observe `durable`. -/

/-- A row of the `code_chunks` table (minus `created_at`). -/
structure StoredRow where
  id : Nat
  file_path : String
  chunk_type : String
  name : String
  content : String
  line_start : Nat
  line_end : Nat
  docstring : String
deriving Repr, DecidableEq

/-- Committed database state: `code_chunks` rows in rowid order and the
next `AUTOINCREMENT` id (not reset by `DELETE`). -/
structure DBState where
  rows : List StoredRow
  nextId : Nat
deriving Repr, DecidableEq

/-- A `sqlite3` connection: committed state plus optional open
transaction. -/
structure Conn where
  durable : DBState
  pending : Option DBState
deriving Repr, DecidableEq

/-- `sqlite3.connect`: fresh connection, no open transaction. -/
def connect (db : DBState) : Conn := ⟨db, none⟩

/-- The implicit `BEGIN` issued before a data-modifying statement when
no transaction is open. -/
def beginTx (c : Conn) : Conn :=
  match c.pending with
  | some _ => c
  | none => ⟨c.durable, some c.durable⟩

/-- `conn.execute("DELETE FROM code_chunks")`. -/
def execDelete (c : Conn) : Conn :=
  match (beginTx c).pending with
  | some p => ⟨c.durable, some ⟨[], p.nextId⟩⟩
  | none => beginTx c

/-- The row an `INSERT INTO code_chunks ... VALUES (?,...)` statement
creates from a chunk, with the auto-assigned id. -/
def rowOfChunk (id : Nat) (ch : CodeChunk) : StoredRow :=
  ⟨id, ch.file_path, ch.chunk_type, ch.name, ch.content,
    ch.line_start, ch.line_end, ch.docstring⟩

/-- `conn.execute("INSERT INTO code_chunks ...", chunk fields)`. -/
def execInsert (c : Conn) (ch : CodeChunk) : Conn :=
  match (beginTx c).pending with
  | some p => ⟨c.durable, some ⟨p.rows ++ [rowOfChunk p.nextId ch], p.nextId + 1⟩⟩
  | none => beginTx c

/-- `conn.commit()`: publish the pending state. -/
def commitTx (c : Conn) : Conn :=
  match c.pending with
  | some p => ⟨p, none⟩
  | none => c

/-- The insert loop of `store_code_chunks`, with an injected write
failure: `failAt = some i` makes the `i`-th `INSERT` raise, at which
point the loop stops (`true` = failed) and `commit` is never reached. -/
def insertLoop (c : Conn) (chunks : List CodeChunk) (i : Nat)
    (failAt : Option Nat) : Bool × Conn :=
  match chunks with
  | [] => (false, c)
  | ch :: rest =>
    if failAt = some i then (true, c)
    else insertLoop (execInsert c ch) rest (i + 1) failAt

/-- `LocalStorage.store_code_chunks` (the spec's `replaceAll`): open a
connection, `DELETE` all rows, `INSERT` each chunk, `commit`.  The
result is the failure flag and the state a concurrent reader of the
store observes afterwards (on failure the exception propagates before
`commit`, so the open transaction is rolled back). -/
def store_code_chunks (db : DBState) (chunks : List CodeChunk)
    (failAt : Option Nat) : Bool × DBState :=
  match insertLoop (execDelete (connect db)) chunks 0 failAt with
  | (true, c2) => (true, c2.durable)
  | (false, c2) => (false, (commitTx c2).durable)

/-- The rows a successful `store_code_chunks` inserts, ids assigned
consecutively from `nid`. -/
def rowsFrom (nid : Nat) : List CodeChunk → List StoredRow
  | [] => []
  | ch :: rest => rowOfChunk nid ch :: rowsFrom (nid + 1) rest

/-- The `ORDER BY file_path, line_start` comparison of
`get_all_chunks` (SQLite compares `TEXT` bytewise ascending, which on
UTF-8 agrees with `String`'s order). -/
def rowRel (a b : StoredRow) : Prop :=
  a.file_path < b.file_path ∨
    (a.file_path = b.file_path ∧ a.line_start ≤ b.line_start)

instance : DecidableRel rowRel := fun a b =>
  inferInstanceAs (Decidable (_ ∨ _))

/-- `LocalStorage.get_all_chunks`:
`SELECT * FROM code_chunks ORDER BY file_path, line_start`.  SQL
leaves the relative order of `ORDER BY`-ties unspecified; the
embedding picks the stable such sort. -/
def get_all_chunks (db : DBState) : List StoredRow :=
  List.insertionSort rowRel db.rows

/-- The `ORDER BY line_start` comparison of `get_chunks_by_file`. -/
def lineRel (a b : StoredRow) : Prop := a.line_start ≤ b.line_start

instance : DecidableRel lineRel := fun a b =>
  inferInstanceAs (Decidable (_ ≤ _))

/-- `LocalStorage.get_chunks_by_file`: rows with the given `file_path`,
ordered by `line_start`. -/
def get_chunks_by_file (db : DBState) (fp : String) : List StoredRow :=
  List.insertionSort lineRel (db.rows.filter (fun r => r.file_path = fp))

/-- The configuration record `LocalStorage.init_db` writes to
`config.json`, as a function of the process's current working
directory: the code stores `str(Path.cwd())` under `initialized_at`. -/
structure AthConfig where
  version : String
  initialized_at : String
  max_context_chunks : Nat
deriving Repr, DecidableEq

/-- The `config` dict built at the end of `init_db`. -/
def init_db_config (cwd : String) : AthConfig :=
  { version := "0.1.0"
    initialized_at := cwd
    max_context_chunks := 10 }

/-! ## Lexical retriever (`ath/ai_chat.py`, `AthAI._find_relevant_chunks`)

The retriever is stated over an explicit chunk list (the rows
`self.storage.get_all_chunks()` returns), so it is a pure function as
the spec demands.  Python `set`s of tokens are modelled by
duplicate-free lists: only intersection sizes are ever taken, so the
set's iteration order is irrelevant. -/

/-- `set(word.lower() for word in question.split() if len(word) > 2)`:
the length test precedes lowering (lowering preserves length here),
and `dedupKeepFirst` realises the set. -/
def questionWordsOf (question : String) : List String :=
  dedupKeepFirst []
    (((pySplitWS question).filter (fun w => 2 < w.length)).map pyLower)

/-- `len(question_words & other_set)`: the number of (distinct)
question words that also occur in `ws`. -/
def countCommon (qws ws : List String) : Nat :=
  (qws.filter (fun w => ws.contains w)).length

/-- The score the `for chunk in all_chunks` loop computes:
`5 *` name-word overlap `+ 3 *` docstring-word overlap (guarded by
`if docstring:`) `+ 2 *` file-path-word overlap, where
`name_words = set(name.split('_') + name.split())` (Python keeps empty
pieces when splitting on an explicit separator, as `splitOn` does) and
`file_words` come from the path with `/` and `.` replaced by spaces. -/
def chunkScore (question_words : List String) (chunk : CodeChunk) : Nat :=
  let name := pyLower chunk.name
  let name_words := pySplitKeep '_' name ++ pySplitWS name
  let s1 := countCommon question_words name_words * 5
  let docstring := pyLower chunk.docstring
  let s2 :=
    if docstring ≠ "" then countCommon question_words (pySplitWS docstring) * 3
    else 0
  let fp := pyLower chunk.file_path
  let file_words := pySplitWS (pyReplaceChar '.' ' ' (pyReplaceChar '/' ' ' fp))
  let s3 := countCommon question_words file_words * 2
  s1 + s2 + s3

/-- The comparison of `relevant.sort(key=lambda x: x[1], reverse=True)`:
score descending.  Python's `list.sort` is stable, and
`List.insertionSort` with this non-strict relation computes exactly
the stable descending reordering. -/
def scoreRel (x y : CodeChunk × Nat) : Prop := y.2 ≤ x.2

instance : DecidableRel scoreRel := fun x y =>
  inferInstanceAs (Decidable (_ ≤ _))

/-- `AthAI._find_relevant_chunks`: accumulate `(chunk, score)` pairs
with positive score, sort by score descending (stable), return the
chunks of the first five pairs (`relevant[:5]`). -/
def find_relevant_chunks (question : String) (all_chunks : List CodeChunk) :
    List CodeChunk :=
  let question_words := questionWordsOf question
  let relevant := all_chunks.foldl
    (fun acc chunk =>
      let score := chunkScore question_words chunk
      if 0 < score then acc ++ [(chunk, score)] else acc) []
  let sorted := List.insertionSort scoreRel relevant
  (sorted.take 5).map Prod.fst

/-- The scored positive-score pairs in store order, as a direct
map-and-filter (used to state properties of the fold above). -/
def scoredChunks (question : String) (chunks : List CodeChunk) :
    List (CodeChunk × Nat) :=
  (chunks.map (fun c => (c, chunkScore (questionWordsOf question) c))).filter
    (fun p => 0 < p.2)

/-! ## Helper lemmas -/

instance : IsTotal (CodeChunk × Nat) scoreRel :=
  ⟨fun a b => by unfold scoreRel; omega⟩

instance : IsTrans (CodeChunk × Nat) scoreRel :=
  ⟨fun a b c h1 h2 => by unfold scoreRel at h1 h2 ⊢; omega⟩

/-- The accumulator loop of `_find_relevant_chunks` is append of the
positive-score pairs in store order. -/
theorem foldl_relevant (qws : List String) (chunks : List CodeChunk)
    (acc : List (CodeChunk × Nat)) :
    chunks.foldl (fun acc chunk =>
        let score := chunkScore qws chunk
        if 0 < score then acc ++ [(chunk, score)] else acc) acc
      = acc ++ (chunks.map (fun c => (c, chunkScore qws c))).filter
          (fun p => 0 < p.2) := by
  induction chunks generalizing acc with
  | nil => simp
  | cons c rest ih =>
    simp only [List.foldl_cons, List.map_cons, List.filter_cons]
    rw [ih]
    by_cases h : 0 < chunkScore qws c
    · simp [h]
    · simp [h]

/-- A question with no (length `> 2`) tokens gives every chunk score 0. -/
theorem chunkScore_nil (c : CodeChunk) : chunkScore [] c = 0 := by
  simp [chunkScore, countCommon]

/-- Inserting a pair into a list keeps the sublist of any fixed score
intact: the elements `orderedInsert` skips all have strictly larger
score.  This is the key stability fact about the retriever's sort. -/
theorem filter_score_orderedInsert (s : Nat) (a : CodeChunk × Nat)
    (l : List (CodeChunk × Nat)) :
    (List.orderedInsert scoreRel a l).filter (fun p => p.2 == s)
      = if a.2 == s then a :: l.filter (fun p => p.2 == s)
        else l.filter (fun p => p.2 == s) := by
  induction l with
  | nil =>
    by_cases has : a.2 = s
    · simp [has]
    · simp [has]
  | cons b l ih =>
    by_cases hab : scoreRel a b
    · rw [List.orderedInsert_of_le _ _ hab]
      by_cases has : a.2 = s
      · simp [has, List.filter_cons]
      · simp [has, List.filter_cons]
    · have hlt : a.2 < b.2 := by unfold scoreRel at hab; omega
      simp only [List.orderedInsert, if_neg hab]
      by_cases has : a.2 = s
      · have hbs : ¬ b.2 = s := by omega
        simp [List.filter_cons, has, hbs, ih]
      · simp [List.filter_cons, has, ih]

/-- Stability of the retriever's sort: for every score value, the
equal-score pairs appear in the sorted list exactly in their original
order. -/
theorem filter_score_insertionSort (s : Nat) (l : List (CodeChunk × Nat)) :
    (List.insertionSort scoreRel l).filter (fun p => p.2 == s)
      = l.filter (fun p => p.2 == s) := by
  induction l with
  | nil => rfl
  | cons a l ih =>
    simp only [List.insertionSort, filter_score_orderedInsert, ih,
      List.filter_cons]

instance : IsTotal StoredRow rowRel :=
  ⟨fun a b => by
    unfold rowRel
    rcases lt_trichotomy a.file_path b.file_path with h | h | h
    · exact Or.inl (Or.inl h)
    · rcases Nat.le_total a.line_start b.line_start with h2 | h2
      · exact Or.inl (Or.inr ⟨h, h2⟩)
      · exact Or.inr (Or.inr ⟨h.symm, h2⟩)
    · exact Or.inr (Or.inl h)⟩

instance : IsTrans StoredRow rowRel :=
  ⟨fun a b c h1 h2 => by
    unfold rowRel at h1 h2 ⊢
    rcases h1 with h1 | ⟨h1e, h1l⟩
    · rcases h2 with h2 | ⟨h2e, _⟩
      · exact Or.inl (h1.trans h2)
      · exact Or.inl (h2e ▸ h1)
    · rcases h2 with h2 | ⟨h2e, h2l⟩
      · exact Or.inl (h1e ▸ h2)
      · exact Or.inr ⟨h1e.trans h2e, h1l.trans h2l⟩⟩

/-- `execInsert` touches only the open transaction, never the
committed state a concurrent reader sees. -/
theorem durable_execInsert (c : Conn) (ch : CodeChunk) :
    (execInsert c ch).durable = c.durable := by
  rcases c with ⟨d, p⟩
  cases p <;> rfl

/-- The insert loop never changes the committed state: before `commit`
runs, every intermediate (and any aborted) state shows the old rows. -/
theorem durable_insertLoop (chunks : List CodeChunk) (c : Conn) (i : Nat)
    (failAt : Option Nat) :
    ((insertLoop c chunks i failAt).2).durable = c.durable := by
  induction chunks generalizing c i with
  | nil => rfl
  | cons ch rest ih =>
    unfold insertLoop
    by_cases h : failAt = some i
    · simp [h]
    · simp only [if_neg h]
      rw [ih, durable_execInsert]

/-- With no injected failure the loop completes. -/
theorem insertLoop_none_ok (chunks : List CodeChunk) (c : Conn) (i : Nat) :
    (insertLoop c chunks i none).1 = false := by
  induction chunks generalizing c i with
  | nil => rfl
  | cons ch rest ih =>
    unfold insertLoop
    simp only [reduceCtorEq, if_neg]
    exact ih _ _

/-- A failure injected at any position inside the batch aborts the
loop. -/
theorem insertLoop_some_fails (chunks : List CodeChunk) (c : Conn)
    (i j : Nat) (h1 : i ≤ j) (h2 : j < i + chunks.length) :
    (insertLoop c chunks i (some j)).1 = true := by
  induction chunks generalizing c i with
  | nil => simp at h2; omega
  | cons ch rest ih =>
    unfold insertLoop
    by_cases h : (some j : Option Nat) = some i
    · simp [h]
    · have hij : i ≠ j := fun he => h (by rw [he])
      simp only [if_neg h]
      refine ih _ _ (by omega) ?_
      simp at h2
      omega

/-- On a completed run the open transaction holds exactly the old
pending rows extended with the freshly inserted ones. -/
theorem pending_insertLoop (chunks : List CodeChunk) (c : Conn)
    (p : DBState) (i : Nat) (failAt : Option Nat)
    (hp : c.pending = some p)
    (hok : (insertLoop c chunks i failAt).1 = false) :
    ((insertLoop c chunks i failAt).2).pending =
      some ⟨p.rows ++ rowsFrom p.nextId chunks, p.nextId + chunks.length⟩ := by
  induction chunks generalizing c p i with
  | nil => simp [insertLoop, hp, rowsFrom]
  | cons ch rest ih =>
    unfold insertLoop at hok ⊢
    by_cases h : failAt = some i
    · rw [if_pos h] at hok; exact absurd hok (by simp)
    · rw [if_neg h] at hok ⊢
      have hp2 : (execInsert c ch).pending =
          some ⟨p.rows ++ [rowOfChunk p.nextId ch], p.nextId + 1⟩ := by
        rcases c with ⟨d, pd⟩
        cases pd with
        | none => simp at hp
        | some q =>
          have : q = p := by simpa using hp
          subst this
          rfl
      rw [ih _ _ _ hp2 hok]
      simp only [rowsFrom, List.append_assoc, List.singleton_append,
        List.length_cons]
      have harith : p.nextId + 1 + rest.length = p.nextId + (rest.length + 1) := by
        omega
      rw [harith]

/-- Full behaviour of `store_code_chunks`: an aborted run leaves the
committed state untouched, a completed run commits exactly the new
rows. -/
theorem store_spec (db : DBState) (chunks : List CodeChunk)
    (failAt : Option Nat) :
    store_code_chunks db chunks failAt
      = if (insertLoop (execDelete (connect db)) chunks 0 failAt).1 = true
        then (true, db)
        else (false, ⟨rowsFrom db.nextId chunks, db.nextId + chunks.length⟩) := by
  rcases hloop : insertLoop (execDelete (connect db)) chunks 0 failAt with ⟨failed, c2⟩
  cases failed with
  | true =>
    have hd := durable_insertLoop chunks (execDelete (connect db)) 0 failAt
    rw [hloop] at hd
    unfold store_code_chunks
    rw [hloop, if_pos rfl]
    simpa using hd
  | false =>
    have hp := pending_insertLoop chunks (execDelete (connect db))
      ⟨[], db.nextId⟩ 0 failAt rfl (by rw [hloop])
    rw [hloop] at hp
    simp only [List.nil_append] at hp
    unfold store_code_chunks
    rw [hloop, if_neg (by simp)]
    show (false, (commitTx c2).durable) = _
    unfold commitTx
    rw [hp]

mutual

/-- Walking a subtree and keeping the `FunctionDef`/`ClassDef` nodes
finds exactly the `countFCNode`-many of them. -/
theorem length_filter_walkNode (n : Node) :
    ((walkNode n).filter isFCNode).length = countFCNode n := by
  rcases n with ⟨k, nm, l, e, d, cs⟩
  rw [walkNode, countFCNode, List.filter_cons]
  by_cases h : isFCNode (.node k nm l e d cs)
  · rw [if_pos (by simpa using h), List.length_cons,
      length_filter_walkForest cs, if_pos h]
    omega
  · rw [if_neg (by simpa using h), length_filter_walkForest cs, if_neg h]
    omega

/-- Forest version of `length_filter_walkNode`. -/
theorem length_filter_walkForest (cs : List Node) :
    ((walkForest cs).filter isFCNode).length = countFCForest cs := by
  match cs with
  | [] => rfl
  | c :: cs =>
    rw [walkForest, countFCForest, List.filter_append, List.length_append,
      length_filter_walkNode c, length_filter_walkForest cs]

end

/-- The chunk-accumulating loop of `scan_project` is concatenation. -/
theorem foldl_scan (files : List PyFile) (acc : List CodeChunk) :
    files.foldl (fun chunks f => chunks ++ parse_python_file f) acc
      = acc ++ scan_project files := by
  induction files generalizing acc with
  | nil => simp [scan_project]
  | cons f rest ih =>
    rw [scan_project, List.foldl_cons, List.foldl_cons, ih, ih]
    simp

/-- A declaration chunk is typed `function` or `class`, never
`module`. -/
theorem extract_chunk_type (n : Node) (fc fp : String) :
    (extract_node_chunk n fc fp).chunk_type = "function" ∨
      (extract_node_chunk n fc fp).chunk_type = "class" := by
  unfold extract_node_chunk
  by_cases h : n.kind = NodeKind.functionDef
  · exact Or.inl (by simp [h])
  · exact Or.inr (by simp [h])

/-- Direct `.py` members of a listing are single-component paths. -/
theorem mem_pyFilesOf_shape (es : List FS) (p : List String)
    (hp : p ∈ pyFilesOf es) : ∃ n, p = [n] ∧ pyEndsWith n ".py" := by
  induction es with
  | nil => simp [pyFilesOf] at hp
  | cons e es ih =>
    cases e with
    | file n =>
      rw [pyFilesOf, List.mem_append] at hp
      rcases hp with hp | hp
      · by_cases h : pyEndsWith n ".py"
        · rw [if_pos h] at hp
          simp at hp
          exact ⟨n, hp, h⟩
        · rw [if_neg h] at hp
          simp at hp
      · exact ih hp
    | dir n cs => exact ih hp

/-- Paths coming out of a subdirectory are at least two components
deep (directory name consed onto a path). -/
theorem mem_allPySubdirs_shape (es : List FS) (p : List String)
    (hp : p ∈ allPySubdirs es) : ∃ n q, p = n :: q ∧ q ≠ [] := by
  induction es with
  | nil => simp [allPySubdirs] at hp
  | cons e es ih =>
    cases e with
    | file n =>
      rw [allPySubdirs] at hp
      exact ih hp
    | dir n cs =>
      rw [allPySubdirs, List.mem_append] at hp
      rcases hp with hp | hp
      · rw [List.mem_map] at hp
        obtain ⟨q, hq, hpq⟩ := hp
        refine ⟨n, q, hpq.symm, ?_⟩
        intro hnil
        rw [hnil] at hq
        rw [allPyDir, List.mem_append] at hq
        rcases hq with hq | hq
        · obtain ⟨m, hm, _⟩ := mem_pyFilesOf_shape _ _ hq
          simp at hm
        · obtain ⟨m, r, hmr, _⟩ := mem_allPySubdirs_shape _ _ hq
          simp at hmr
      · exact ih hp

/-- Every `.py` path of the tree is nonempty. -/
theorem ne_nil_of_mem_allPyDir (es : List FS) (p : List String)
    (hp : p ∈ allPyDir es) : p ≠ [] := by
  rw [allPyDir, List.mem_append] at hp
  rcases hp with hp | hp
  · obtain ⟨n, hn, _⟩ := mem_pyFilesOf_shape _ _ hp
    simp [hn]
  · obtain ⟨n, q, hnq, _⟩ := mem_allPySubdirs_shape _ _ hp
    simp [hnq]

mutual

/-- A path is produced by the pruning traversal exactly when the tree
contains it as a `.py` file and none of its directory components is an
ignored name (exact equality). -/
theorem mem_findPyDir (es : List FS) (p : List String) :
    p ∈ findPyDir es ↔
      p ∈ allPyDir es ∧ ∀ d ∈ p.dropLast, d ∉ ignore_patterns := by
  rw [findPyDir, allPyDir, List.mem_append, List.mem_append]
  constructor
  · rintro (hp | hp)
    · obtain ⟨n, hn, _⟩ := mem_pyFilesOf_shape es p hp
      exact ⟨Or.inl hp, by simp [hn]⟩
    · obtain ⟨ha, hok⟩ := (mem_findPySubdirs es p).mp hp
      exact ⟨Or.inr ha, hok⟩
  · rintro ⟨hp | hp, hok⟩
    · exact Or.inl hp
    · exact Or.inr ((mem_findPySubdirs es p).mpr ⟨hp, hok⟩)

/-- Subdirectory version of `mem_findPyDir`. -/
theorem mem_findPySubdirs (es : List FS) (p : List String) :
    p ∈ findPySubdirs es ↔
      p ∈ allPySubdirs es ∧ ∀ d ∈ p.dropLast, d ∉ ignore_patterns := by
  match es with
  | [] => simp [findPySubdirs, allPySubdirs]
  | .file n :: es =>
    rw [findPySubdirs, allPySubdirs]
    exact mem_findPySubdirs es p
  | .dir n cs :: es =>
    rw [findPySubdirs, allPySubdirs, List.mem_append, List.mem_append]
    by_cases hn : n ∈ ignore_patterns
    · rw [if_pos hn]
      constructor
      · rintro (hp | hp)
        · simp at hp
        · obtain ⟨ha, hok⟩ := (mem_findPySubdirs es p).mp hp
          exact ⟨Or.inr ha, hok⟩
      · rintro ⟨hp | hp, hok⟩
        · rw [List.mem_map] at hp
          obtain ⟨q, hq, hpq⟩ := hp
          have hqne : q ≠ [] := ne_nil_of_mem_allPyDir cs q hq
          exfalso
          refine hok n ?_ hn
          rw [← hpq, List.dropLast_cons_of_ne_nil hqne]
          exact List.mem_cons_self n q.dropLast
        · exact Or.inr ((mem_findPySubdirs es p).mpr ⟨hp, hok⟩)
    · rw [if_neg hn]
      constructor
      · rintro (hp | hp)
        · rw [List.mem_map] at hp
          obtain ⟨q, hq, hpq⟩ := hp
          obtain ⟨hqa, hqok⟩ := (mem_findPyDir cs q).mp hq
          have hqne : q ≠ [] := ne_nil_of_mem_allPyDir cs q hqa
          refine ⟨Or.inl (List.mem_map.mpr ⟨q, hqa, hpq⟩), ?_⟩
          rw [← hpq, List.dropLast_cons_of_ne_nil hqne]
          intro d hd
          rcases List.mem_cons.mp hd with hd | hd
          · rw [hd]; exact hn
          · exact hqok d hd
        · obtain ⟨ha, hok⟩ := (mem_findPySubdirs es p).mp hp
          exact ⟨Or.inr ha, hok⟩
      · rintro ⟨hp | hp, hok⟩
        · rw [List.mem_map] at hp
          obtain ⟨q, hq, hpq⟩ := hp
          have hqne : q ≠ [] := ne_nil_of_mem_allPyDir cs q hq
          have hqok : ∀ d ∈ q.dropLast, d ∉ ignore_patterns := by
            intro d hd
            refine hok d ?_
            rw [← hpq, List.dropLast_cons_of_ne_nil hqne]
            exact List.mem_cons_of_mem n hd
          exact Or.inl (List.mem_map.mpr
            ⟨q, (mem_findPyDir cs q).mpr ⟨hq, hqok⟩, hpq⟩)
        · exact Or.inr ((mem_findPySubdirs es p).mpr ⟨hp, hok⟩)

end

/-- The pipeline equation behind the retriever: the returned chunks
are the first five of the stable score-descending sort of the
positive-score pairs, projected to chunks. -/
theorem find_relevant_chunks_eq (question : String) (chunks : List CodeChunk) :
    find_relevant_chunks question chunks
      = ((List.insertionSort scoreRel (scoredChunks question chunks)).map
          Prod.fst).take 5 := by
  unfold find_relevant_chunks scoredChunks
  simp only [foldl_relevant, List.nil_append, List.map_take]

/-! ## The claims -/

/-- Example for C1: a file whose single top-level function contains a
nested function. -/
def nestedModule : PyModule :=
  ⟨none, [.node .functionDef "outer" 1 (some 3) none
    [.node .functionDef "inner" 2 (some 3) none []]]⟩

/-- The file holding `nestedModule`. -/
def nestedFile : PyFile :=
  ⟨"a.py", "a", "def outer():\n    def inner():\n        pass", some nestedModule⟩

/-- C1, counterexample: the scanner walks the whole AST (`ast.walk`),
so the nested function also becomes a chunk: the file has 1 top-level
declaration but `_parse_python_file` returns 3 chunks, not `1 + 1`. -/
theorem C1_counterexample :
    topLevelFCCount nestedModule = 1 ∧
      (parse_python_file nestedFile).length ≠ 1 + topLevelFCCount nestedModule := by
  refine ⟨rfl, ?_⟩
  have h3 : (parse_python_file nestedFile).length = 3 := rfl
  have h1 : topLevelFCCount nestedModule = 1 := rfl
  rw [h3, h1]
  omega

/-- C1, amended: for every eligible (parsed) source file, scan produces
exactly one module chunk plus one chunk per function or class
definition at every nesting depth (methods and nested definitions
included, `async def` excluded); hence a file defining a single
top-level function with no nested definitions yields exactly 2
chunks. -/
theorem C1_amended_chunk_count (f : PyFile) (t : PyModule)
    (h : f.tree = some t) :
    (parse_python_file f).length = 1 + countFCForest t.body := by
  unfold parse_python_file
  rw [h]
  simp only [List.length_cons, List.length_map, length_filter_walkForest]
  omega

/-- Example for the C1 witness: a file defining one top-level function
with no nested definitions. -/
def singleFnModule : PyModule :=
  ⟨some "Adds numbers.", [.node .functionDef "add" 3 (some 4) (some "adds two numbers") []]⟩

/-- The file holding `singleFnModule`. -/
def singleFnFile : PyFile :=
  ⟨"A.py", "A", "\"\"\"Adds numbers.\"\"\"\n\ndef add(a, b):\n    return a + b", some singleFnModule⟩

/-- C1 witness: the amended count theorem at a concrete file; the file
with a single top-level function yields exactly 2 chunks. -/
theorem C1_amended_chunk_count_witness :
    (parse_python_file singleFnFile).length = 1 + countFCForest singleFnModule.body ∧
      (parse_python_file singleFnFile).length = 2 :=
  ⟨C1_amended_chunk_count singleFnFile singleFnModule rfl, rfl⟩

/-- C2: the retriever scores each chunk `5 *` name overlap `+ 3 *`
docstring overlap `+ 2 *` path overlap against the lower-cased,
whitespace-split, length `> 2` query tokens (`chunkScore`), drops the
zero scorers, sorts the rest by score descending and returns the first
5 (`topK`); the result length is at most 5, and an empty token set or
an empty chunk sequence gives an empty result. -/
theorem C2_retriever_pipeline (question : String) (chunks : List CodeChunk) :
    find_relevant_chunks question chunks
        = ((List.insertionSort scoreRel (scoredChunks question chunks)).map
            Prod.fst).take 5
      ∧ (find_relevant_chunks question chunks).length ≤ 5
      ∧ (questionWordsOf question = [] →
          find_relevant_chunks question chunks = [])
      ∧ find_relevant_chunks question [] = [] := by
  refine ⟨find_relevant_chunks_eq question chunks, ?_, ?_, rfl⟩
  · rw [find_relevant_chunks_eq]
    have := List.length_take_le 5
      ((List.insertionSort scoreRel (scoredChunks question chunks)).map Prod.fst)
    exact this
  · intro h
    rw [find_relevant_chunks_eq]
    have hz : scoredChunks question chunks = [] := by
      unfold scoredChunks
      rw [h]
      simp [chunkScore_nil]
    rw [hz]
    rfl

/-- Example chunk for the C2 witness. -/
def renderChunk : CodeChunk :=
  ⟨"views/render_view.py", "function", "render_view", "def render_view(): ...", 1, 2, "renders the view"⟩

/-- C2 witness: the query `"hi"` has no token longer than 2
characters, so every score is 0 and the result is empty. -/
theorem C2_retriever_pipeline_witness :
    questionWordsOf "hi" = [] ∧ find_relevant_chunks "hi" [renderChunk] = [] :=
  ⟨rfl, (C2_retriever_pipeline "hi" [renderChunk]).2.2.1 rfl⟩

/-- C3: `store_code_chunks` is all-or-nothing.  Whatever the injected
failure point, the observable store is either exactly the old state
(on failure: the delete and all inserts sit in one uncommitted
transaction, so a mid-batch abort leaves the pre-call rows intact and
no old/new mix is ever committed) or exactly the freshly inserted
rows (on success); a failure injected anywhere inside the batch does
abort, and the failure-free run succeeds. -/
theorem C3_replaceAll_atomic (db : DBState) (chunks : List CodeChunk)
    (failAt : Option Nat) :
    ((store_code_chunks db chunks failAt).1 = true →
        (store_code_chunks db chunks failAt).2 = db)
      ∧ ((store_code_chunks db chunks failAt).1 = false →
        (store_code_chunks db chunks failAt).2
          = ⟨rowsFrom db.nextId chunks, db.nextId + chunks.length⟩)
      ∧ (∀ i, i < chunks.length →
          (store_code_chunks db chunks (some i)).1 = true)
      ∧ (store_code_chunks db chunks none).1 = false := by
  refine ⟨?_, ?_, ?_, ?_⟩
  · intro h
    rw [store_spec] at h ⊢
    by_cases hb : (insertLoop (execDelete (connect db)) chunks 0 failAt).1 = true
    · rw [if_pos hb]
    · rw [if_neg hb] at h
      simp at h
  · intro h
    rw [store_spec] at h ⊢
    by_cases hb : (insertLoop (execDelete (connect db)) chunks 0 failAt).1 = true
    · rw [if_pos hb] at h
      simp at h
    · rw [if_neg hb]
  · intro i hi
    rw [store_spec]
    rw [if_pos (insertLoop_some_fails chunks (execDelete (connect db)) 0 i
      (Nat.zero_le i) (by omega))]
  · rw [store_spec]
    rw [if_neg (by rw [insertLoop_none_ok]; simp)]

/-- Example store state for the C3 witness. -/
def exDbC3 : DBState := ⟨[⟨1, "old.py", "module", "old", "", 1, 1, ""⟩], 2⟩

/-- Example chunk batch for the C3 witness. -/
def exChunksC3 : List CodeChunk :=
  [⟨"a.py", "module", "a", "x = 1", 1, 1, ""⟩,
   ⟨"a.py", "function", "f", "def f(): pass", 2, 2, "doc"⟩]

/-- C3 witness: a failure injected before the second insert leaves the
old row set observable; the failure-free run commits exactly the new
rows. -/
theorem C3_replaceAll_atomic_witness :
    (store_code_chunks exDbC3 exChunksC3 (some 1)).2 = exDbC3 ∧
      (store_code_chunks exDbC3 exChunksC3 none).2
        = ⟨rowsFrom exDbC3.nextId exChunksC3, exDbC3.nextId + exChunksC3.length⟩ :=
  ⟨(C3_replaceAll_atomic exDbC3 exChunksC3 (some 1)).1 rfl,
    (C3_replaceAll_atomic exDbC3 exChunksC3 none).2.1 rfl⟩

/-- C4: `get_all_chunks` returns every stored row (a permutation of
the table contents) sorted ascending by `file_path` and, within equal
`file_path`, ascending by `line_start`, for any insertion order. -/
theorem C4_listAll_sorted (db : DBState) :
    (get_all_chunks db).Perm db.rows ∧ List.Sorted rowRel (get_all_chunks db) :=
  ⟨List.perm_insertionSort rowRel db.rows,
    List.sorted_insertionSort rowRel db.rows⟩

/-- C5: the module chunk of an eligible (parsed) file — the head of
its chunk list, and its only `module`-typed chunk — has `line_start =
1`, name the file stem, content the first 500 characters of the text,
`line_end` the `len(content.split('\n'))` line count, and the
file-level docstring (empty if none). -/
theorem C5_module_chunk_fields (f : PyFile) (t : PyModule)
    (h : f.tree = some t) :
    (parse_python_file f).head? = some
        ⟨f.relPath, "module", f.stem, pyTake 500 f.content, 1,
          (pySplitKeep '\n' f.content).length, t.docstring.getD ""⟩
      ∧ ∀ c ∈ parse_python_file f, c.chunk_type = "module" →
          c = moduleChunkOf f t := by
  constructor
  · unfold parse_python_file
    rw [h]
    rfl
  · intro c hc hmod
    unfold parse_python_file at hc
    rw [h] at hc
    rcases List.mem_cons.mp hc with hc | hc
    · exact hc
    · exfalso
      obtain ⟨n, hn, hextr⟩ := List.mem_map.mp hc
      rcases extract_chunk_type n f.content f.relPath with he | he
      · rw [hextr, hmod] at he
        exact absurd he (by decide)
      · rw [hextr, hmod] at he
        exact absurd he (by decide)

/-- Example module for the C5 witness. -/
def exModC5 : PyModule :=
  ⟨some "Module doc.", [.node .functionDef "f" 3 (some 4) none []]⟩

/-- Example file for the C5 witness. -/
def exFileC5 : PyFile :=
  ⟨"m.py", "m", "\"\"\"Module doc.\"\"\"\n\ndef f():\n    pass", some exModC5⟩

/-- C5 witness: the module-chunk description at a concrete file. -/
theorem C5_module_chunk_fields_witness :
    (parse_python_file exFileC5).head? = some
        ⟨"m.py", "module", "m", pyTake 500 exFileC5.content, 1,
          (pySplitKeep '\n' exFileC5.content).length, "Module doc."⟩ :=
  (C5_module_chunk_fields exFileC5 exModC5 rfl).1

/-- Example tree for C6: an exactly-ignored directory, a directory
whose name merely contains an ignored name as a proper substring, and
an ordinary directory. -/
def exTreeC6 : List FS :=
  [.dir "node_modules" [.file "x.py"],
   .dir "node_modules_backup" [.file "y.py"],
   .dir "src" [.file "z.py"]]

/-- C6: a `.py` file is in `scan`'s file list exactly when it is in
the tree and no directory on its path is named exactly as an
ignore-set entry; concretely, a file under `node_modules` is pruned
while a file under `node_modules_backup` (substring containment only)
is kept. -/
theorem C6_ignore_exact_dir_names :
    (∀ (es : List FS) (p : List String),
        p ∈ find_python_files es ↔
          p ∈ allPyDir es ∧ ∀ d ∈ p.dropLast, d ∉ ignore_patterns)
      ∧ ["node_modules", "x.py"] ∉ find_python_files exTreeC6
      ∧ ["node_modules_backup", "y.py"] ∈ find_python_files exTreeC6 := by
  have hev : find_python_files exTreeC6
      = [["node_modules_backup", "y.py"], ["src", "z.py"]] := by
    simp [find_python_files, exTreeC6, findPyDir, findPySubdirs, pyFilesOf,
      ignore_patterns, pyEndsWith, List.isPrefixOf]
  refine ⟨mem_findPyDir, ?_, ?_⟩
  · rw [hev]
    decide
  · rw [hev]
    decide

/-- C7: a file whose parse fails contributes no chunks, and the scan
completes with every other file's chunks unchanged — the failure never
reaches `scan_project`'s caller. -/
theorem C7_malformed_file_skipped (pre post : List PyFile) (bad : PyFile)
    (h : bad.tree = none) :
    parse_python_file bad = [] ∧
      scan_project (pre ++ bad :: post)
        = scan_project pre ++ scan_project post := by
  have hbad : parse_python_file bad = [] := by
    unfold parse_python_file
    rw [h]
  refine ⟨hbad, ?_⟩
  unfold scan_project
  rw [List.foldl_append]
  simp only [List.foldl_cons, hbad, List.append_nil]
  rw [foldl_scan]
  rfl

/-- Malformed file for the C7 witness (`ast.parse` raises). -/
def badFileC7 : PyFile := ⟨"bad.py", "bad", "def broken(:", none⟩

/-- Healthy file before the malformed one in the C7 witness. -/
def goodFileC7a : PyFile :=
  ⟨"g1.py", "g1", "def g(): pass",
    some ⟨none, [.node .functionDef "g" 1 (some 1) none []]⟩⟩

/-- Healthy file after the malformed one in the C7 witness. -/
def goodFileC7b : PyFile := ⟨"g2.py", "g2", "x = 1", some ⟨none, []⟩⟩

/-- C7 witness: scanning a concrete three-file project with the middle
file malformed yields exactly the two healthy files' chunks. -/
theorem C7_malformed_file_skipped_witness :
    parse_python_file badFileC7 = [] ∧
      scan_project [goodFileC7a, badFileC7, goodFileC7b]
        = scan_project [goodFileC7a] ++ scan_project [goodFileC7b] :=
  C7_malformed_file_skipped [goodFileC7a] [goodFileC7b] badFileC7 rfl

/-- C8: retrieval is deterministic — a pure function of the query and
chunk list, so two identical calls agree — and the ranking is a stable
descending sort: the sorted pair list is score-descending and, for
every score value, its equal-score pairs are exactly the input's, in
input order; the returned chunks are its first five projections. -/
theorem C8_retrieval_deterministic (question : String)
    (chunks : List CodeChunk) :
    find_relevant_chunks question chunks
        = find_relevant_chunks question chunks
      ∧ find_relevant_chunks question chunks
          = ((List.insertionSort scoreRel (scoredChunks question chunks)).map
              Prod.fst).take 5
      ∧ List.Sorted scoreRel
          (List.insertionSort scoreRel (scoredChunks question chunks))
      ∧ ∀ s : Nat,
          (List.insertionSort scoreRel (scoredChunks question chunks)).filter
              (fun p => p.2 == s)
            = (scoredChunks question chunks).filter (fun p => p.2 == s) :=
  ⟨rfl, find_relevant_chunks_eq question chunks,
    List.sorted_insertionSort scoreRel _,
    fun s => filter_score_insertionSort s _⟩

/-- C9: the configuration record `init_db` writes carries the schema
version and the `max_context_chunks` setting, but its
`initialized_at` field holds `str(Path.cwd())` — the process working
directory, not an initialization timestamp. -/
theorem C9_init_config_stores_cwd :
    init_db_config "/home/user/project"
      = ⟨"0.1.0", "/home/user/project", 10⟩ := rfl

/-- C10: every chunk of a parsed file is the module chunk or arises
from an `ast.FunctionDef` or `ast.ClassDef` node of the walk; in
particular an `async def` function (an `ast.AsyncFunctionDef`, at any
nesting level) yields no chunk, silently. -/
theorem C10_async_defs_yield_no_chunk (f : PyFile) (t : PyModule)
    (h : f.tree = some t) :
    ∀ c ∈ parse_python_file f,
      c = moduleChunkOf f t ∨
        ∃ n ∈ walkForest t.body,
          (n.kind = NodeKind.functionDef ∨ n.kind = NodeKind.classDef) ∧
            c = extract_node_chunk n f.content f.relPath := by
  intro c hc
  unfold parse_python_file at hc
  rw [h] at hc
  rcases List.mem_cons.mp hc with hc | hc
  · exact Or.inl hc
  · obtain ⟨n, hn, hce⟩ := List.mem_map.mp hc
    obtain ⟨hnw, hnf⟩ := List.mem_filter.mp hn
    refine Or.inr ⟨n, hnw, ?_, hce.symm⟩
    unfold isFCNode at hnf
    cases hk : n.kind with
    | functionDef => exact Or.inl rfl
    | classDef => exact Or.inr rfl
    | asyncFunctionDef => rw [hk] at hnf; simp at hnf
    | other => rw [hk] at hnf; simp at hnf

/-- Module with an `async def` and a plain `def` for the C10 witness. -/
def asyncModule : PyModule :=
  ⟨none, [.node .asyncFunctionDef "fetch" 1 (some 2) none [],
          .node .functionDef "calc" 4 (some 5) none []]⟩

/-- The file holding `asyncModule`. -/
def asyncFile : PyFile :=
  ⟨"w.py", "w", "async def fetch():\n    ...\n\ndef calc():\n    ...", some asyncModule⟩

/-- C10 witness: the concrete file yields only 2 chunks — the `async
def` is silently omitted — and the chunk of the plain `def` originates
from a `FunctionDef` node, as the theorem states. -/
theorem C10_async_defs_yield_no_chunk_witness :
    (parse_python_file asyncFile).length = 2 ∧
      (extract_node_chunk (.node .functionDef "calc" 4 (some 5) none [])
          asyncFile.content asyncFile.relPath = moduleChunkOf asyncFile asyncModule ∨
        ∃ n ∈ walkForest asyncModule.body,
          (n.kind = NodeKind.functionDef ∨ n.kind = NodeKind.classDef) ∧
            extract_node_chunk (.node .functionDef "calc" 4 (some 5) none [])
                asyncFile.content asyncFile.relPath
              = extract_node_chunk n asyncFile.content asyncFile.relPath) :=
  ⟨rfl, C10_async_defs_yield_no_chunk asyncFile asyncModule rfl _ (by decide)⟩

end Ath
